import Mathlib

/-!
# Verification of the bfc Brainfuck translator and execution engine

Shallow embedding of the repository sources:

* `src/ir.rs`   — the `Op` instruction enum, the `IR` structure (instruction
  sequence plus jump table), the `FromStr` translator and `ensure_len`;
* `src/vm.rs`   — the `VM` structure and its `step` function;
* `src/interpreter.rs` — the `Interpreter` structure and its `step` function.

Modelling conventions:

* Rust `u8` cell values are `Nat`s kept below 256; the `wrapping_add(1)` /
  `wrapping_sub(1)` of the source are modelled explicitly as `(c + 1) % 256`
  and `(c + 255) % 256`.
* Rust `u32` fields (`memory_buffer_ptr`, `current_token_idx`) are `Nat`s.
  Plain `+= 1` / `-= 1` on them is a program error on overflow/underflow in
  Rust (a panic in debug builds, which is how the repository's tests run);
  such overflow, like every other panic site (out-of-bounds indexing of the
  tape or of the jump table), is modelled by the step function returning
  `none`.
* `str::char_indices` yields the UTF-8 *byte* offset of each character; the
  translator is therefore modelled on `List Char` with an explicit byte-offset
  accumulator using `Char.utf8Size`.
* The two I/O ports (`out_fn`, `in_fn`) are modelled by a trace: `out_buf`
  accumulates every byte passed to the byte sink in order, and `in_fn` is a
  stream giving the result of the k-th byte-source invocation, with
  `in_calls` counting the invocations made so far.
-/

/-- `Op` from src/ir.rs: a single Brainfuck instruction. -/
inductive Op where
  | IncPtr
  | DecPtr
  | IncByte
  | DecByte
  | OutByte
  | InByte
  | LoopStart
  | LoopEnd
deriving DecidableEq

/-- `Op::from_char` from src/ir.rs: create a token from a character. -/
def Op.from_char (ch : Char) : Option Op :=
  if ch = '>' then some Op.IncPtr
  else if ch = '<' then some Op.DecPtr
  else if ch = '+' then some Op.IncByte
  else if ch = '-' then some Op.DecByte
  else if ch = '.' then some Op.OutByte
  else if ch = ',' then some Op.InByte
  else if ch = '[' then some Op.LoopStart
  else if ch = ']' then some Op.LoopEnd
  else none

/-- `Op::into_char` from src/ir.rs: convert a token back into a character. -/
def Op.into_char : Op → Char
  | Op.IncPtr => '>'
  | Op.DecPtr => '<'
  | Op.IncByte => '+'
  | Op.DecByte => '-'
  | Op.OutByte => '.'
  | Op.InByte => ','
  | Op.LoopStart => '['
  | Op.LoopEnd => ']'

/-- `IR` from src/ir.rs: the instruction sequence and the jump table
(`jump_table[i]` holds the matching loop boundary for a loop op at `i`). -/
structure IR where
  tokens : List Op
  jump_table : List Nat
deriving DecidableEq

/-- `ParseErrorKind` from src/ir.rs. -/
inductive ParseErrorKind where
  | UnclosedLoop
  | UnexpectedLoopEnd
deriving DecidableEq

/-- `ParseError` from src/ir.rs: source position (`token_pos`) and kind. -/
structure ParseError where
  token_pos : Nat
  kind : ParseErrorKind
deriving DecidableEq

/-- `ensure_len` from src/ir.rs: resize `v` to `index + 1` with default
elements (0 for the jump table) whenever `v.len() <= index`. -/
def ensure_len (v : List Nat) (index : Nat) : List Nat :=
  if v.length ≤ index then v ++ List.replicate (index + 1 - v.length) 0 else v

/-- `str::char_indices` with a running byte offset: each character is paired
with the UTF-8 byte offset at which it starts. -/
def char_indices_from (off : Nat) : List Char → List (Nat × Char)
  | [] => []
  | c :: rest => (off, c) :: char_indices_from (off + c.utf8Size) rest

/-- `input.char_indices()` over the whole source. -/
def char_indices (s : List Char) : List (Nat × Char) := char_indices_from 0 s

/-- The scanning loop of `IR::from_str` (src/ir.rs): processes the remaining
`(byte offset, char)` pairs carrying the accumulated token list, jump table
and pending-loop-start stack (head = most recently pushed; each entry holds
the loop-start's output index and source byte offset). -/
def from_str_loop : List (Nat × Char) → List Op → List Nat → List (Nat × Nat) →
    Except ParseError (List Op × List Nat × List (Nat × Nat))
  | [], tokens, jump_table, loop_starts => Except.ok (tokens, jump_table, loop_starts)
  | (token_pos, ch) :: rest, tokens, jump_table, loop_starts =>
    match Op.from_char ch with
    | none => from_str_loop rest tokens jump_table loop_starts
    | some Op.LoopStart =>
        from_str_loop rest (tokens ++ [Op.LoopStart]) jump_table
          ((tokens.length, token_pos) :: loop_starts)
    | some Op.LoopEnd =>
        match loop_starts with
        | [] => Except.error ⟨token_pos, ParseErrorKind.UnexpectedLoopEnd⟩
        | (loop_start, _) :: loop_starts2 =>
            let jt1 := ensure_len jump_table (max loop_start tokens.length)
            let jt2 := (jt1.set loop_start tokens.length).set tokens.length loop_start
            from_str_loop rest (tokens ++ [Op.LoopEnd]) jt2 loop_starts2
    | some token => from_str_loop rest (tokens ++ [token]) jump_table loop_starts

/-- `IR::from_str` from src/ir.rs: run the scan, then fail with
`UnclosedLoop` at the most recently pushed surviving loop-start if the stack
is non-empty, else return the IR. -/
def IR.from_str (input : List Char) : Except ParseError IR :=
  match from_str_loop (char_indices input) [] [] [] with
  | Except.error e => Except.error e
  | Except.ok (tokens, jump_table, loop_starts) =>
    match loop_starts with
    | (_, token_pos) :: _ => Except.error ⟨token_pos, ParseErrorKind.UnclosedLoop⟩
    | [] => Except.ok ⟨tokens, jump_table⟩

/-- Number of values a `u32` can hold; `u32` arithmetic must stay below it. -/
def U32_SIZE : Nat := 4294967296

/-- `VM` from src/vm.rs, with the two I/O ports replaced by their observable
trace (`out_buf`: bytes sunk so far; `in_fn`/`in_calls`: the byte-source
stream and the number of invocations made so far). -/
structure VM where
  ir : IR
  memory_buffer : List Nat
  memory_buffer_ptr : Nat
  current_token_idx : Nat
  in_fn : Nat → Nat
  in_calls : Nat
  out_buf : List Nat

/-- The dispatch part of `VM::step` (src/vm.rs): execute `current_token`
against the state. `none` models a panic (tape or jump-table index out of
bounds, or `u32` pointer arithmetic overflow/underflow). -/
def VM.step_exec (s : VM) (current_token : Op) : Option VM :=
  match current_token with
  | Op.IncPtr =>
      if s.memory_buffer_ptr + 1 < U32_SIZE then
        some { s with memory_buffer_ptr := s.memory_buffer_ptr + 1 }
      else none
  | Op.DecPtr =>
      if 0 < s.memory_buffer_ptr then
        some { s with memory_buffer_ptr := s.memory_buffer_ptr - 1 }
      else none
  | Op.IncByte =>
      match s.memory_buffer[s.memory_buffer_ptr]? with
      | some c => some { s with
          memory_buffer := s.memory_buffer.set s.memory_buffer_ptr ((c + 1) % 256) }
      | none => none
  | Op.DecByte =>
      match s.memory_buffer[s.memory_buffer_ptr]? with
      | some c => some { s with
          memory_buffer := s.memory_buffer.set s.memory_buffer_ptr ((c + 255) % 256) }
      | none => none
  | Op.OutByte =>
      match s.memory_buffer[s.memory_buffer_ptr]? with
      | some c => some { s with out_buf := s.out_buf ++ [c] }
      | none => none
  | Op.InByte =>
      if s.memory_buffer_ptr < s.memory_buffer.length then
        some { s with
          memory_buffer := s.memory_buffer.set s.memory_buffer_ptr (s.in_fn s.in_calls % 256),
          in_calls := s.in_calls + 1 }
      else none
  | Op.LoopStart =>
      match s.memory_buffer[s.memory_buffer_ptr]? with
      | some c =>
          if c = 0 then
            match s.ir.jump_table[s.current_token_idx]? with
            | some j => some { s with current_token_idx := j }
            | none => none
          else some s
      | none => none
  | Op.LoopEnd =>
      match s.memory_buffer[s.memory_buffer_ptr]? with
      | some c =>
          if c ≠ 0 then
            match s.ir.jump_table[s.current_token_idx]? with
            | some j => some { s with current_token_idx := j }
            | none => none
          else some s
      | none => none

/-- `VM::step` from src/vm.rs: return `(false, s)` when the instruction
pointer is at or past the end; otherwise dispatch on the current token,
unconditionally advance the instruction pointer by one, and report whether
more tokens remain. -/
def VM.step (s : VM) : Option (Bool × VM) :=
  if s.current_token_idx < s.ir.tokens.length then
    match s.ir.tokens[s.current_token_idx]? with
    | some current_token =>
        match VM.step_exec s current_token with
        | some s1 =>
            if s1.current_token_idx + 1 < U32_SIZE then
              some (decide (s1.current_token_idx + 1 < s1.ir.tokens.length),
                    { s1 with current_token_idx := s1.current_token_idx + 1 })
            else none
        | none => none
    | none => none
  else
    some (false, s)

/-- The result of the n-th further `VM::step` call after the current one
(`step_iter 0 s` is the next call). -/
def VM.step_iter : Nat → VM → Option (Bool × VM)
  | 0, s => VM.step s
  | n + 1, s =>
    match VM.step s with
    | some (_, s1) => VM.step_iter n s1
    | none => none

/-! ## Generic list helpers -/

lemma getElem?_concat {α : Type} (l : List α) (t : α) (i : Nat) :
    (l ++ [t])[i]? = if i < l.length then l[i]? else if i = l.length then some t else none := by
  rcases lt_trichotomy i l.length with h | h | h
  · rw [List.getElem?_append_left h, if_pos h]
  · subst h
    rw [if_neg (lt_irrefl _), if_pos rfl]
    exact List.getElem?_concat_length l t
  · rw [if_neg (by omega), if_neg (by omega), List.getElem?_append_right (by omega),
      List.getElem?_eq_none (by simp; omega)]

lemma ensure_len_length (v : List Nat) (i : Nat) :
    (ensure_len v i).length = max v.length (i + 1) := by
  unfold ensure_len
  split
  · rename_i h
    rw [List.length_append, List.length_replicate, Nat.max_eq_right (by omega)]
    omega
  · rename_i h
    rw [Nat.max_eq_left (by omega)]

lemma ensure_len_getElem?_left (v : List Nat) (i k : Nat) (h : k < v.length) :
    (ensure_len v i)[k]? = v[k]? := by
  unfold ensure_len
  split
  · rw [List.getElem?_append_left h]
  · rfl

/-! ## Facts about `Op.from_char` and `Op.into_char` -/

lemma from_char_lbracket : Op.from_char '[' = some Op.LoopStart := by decide

lemma from_char_rbracket : Op.from_char ']' = some Op.LoopEnd := by decide

lemma into_char_from_char {ch : Char} {op : Op} (h : Op.from_char ch = some op) :
    Op.into_char op = ch := by
  unfold Op.from_char at h
  split_ifs at h <;>
    first
      | (injection h with h0; subst h0; simp_all [Op.into_char])
      | injection h

/-! ## The scan loop: composition -/

lemma from_str_loop_append (a b : List (Nat × Char)) :
    ∀ tokens jt stack, from_str_loop (a ++ b) tokens jt stack =
      match from_str_loop a tokens jt stack with
      | Except.ok (t, j, s) => from_str_loop b t j s
      | Except.error e => Except.error e := by
  induction a with
  | nil => intro tokens jt stack; rfl
  | cons pc rest ih =>
    intro tokens jt stack
    obtain ⟨pos, ch⟩ := pc
    cases h : Op.from_char ch with
    | none => simp only [List.cons_append, from_str_loop, h]; exact ih _ _ _
    | some op =>
      cases op with
      | LoopStart => simp only [List.cons_append, from_str_loop, h]; exact ih _ _ _
      | LoopEnd =>
        cases stack with
        | nil => simp only [List.cons_append, from_str_loop, h]
        | cons s0 stack2 =>
          obtain ⟨a0, p0⟩ := s0
          simp only [List.cons_append, from_str_loop, h]
          exact ih _ _ _
      | IncPtr => simp only [List.cons_append, from_str_loop, h]; exact ih _ _ _
      | DecPtr => simp only [List.cons_append, from_str_loop, h]; exact ih _ _ _
      | IncByte => simp only [List.cons_append, from_str_loop, h]; exact ih _ _ _
      | DecByte => simp only [List.cons_append, from_str_loop, h]; exact ih _ _ _
      | OutByte => simp only [List.cons_append, from_str_loop, h]; exact ih _ _ _
      | InByte => simp only [List.cons_append, from_str_loop, h]; exact ih _ _ _

/-! ## The jump-table pairing invariant of the scan loop -/

lemma getElem?_lt {α : Type} {l : List α} {i : Nat} {a : α} (h : l[i]? = some a) :
    i < l.length := by
  rcases List.getElem?_eq_some_iff.mp h with ⟨h1, _⟩
  exact h1

/-- Indices `i` (a loop-start) and `j` (a loop-end) are matched by the jump
table in both directions. -/
def Paired (tokens : List Op) (jt : List Nat) (i j : Nat) : Prop :=
  tokens[i]? = some Op.LoopStart ∧ tokens[j]? = some Op.LoopEnd ∧
  jt[i]? = some j ∧ jt[j]? = some i

/-- The pending-loop-start stack is well formed: every entry's output index
is a loop-start strictly inside the tokens built so far, and indices strictly
decrease from the most recently pushed entry (the head) downwards. -/
def StackInv (tokens : List Op) (stack : List (Nat × Nat)) : Prop :=
  (∀ e ∈ stack, e.1 < tokens.length ∧ tokens[e.1]? = some Op.LoopStart) ∧
  List.Pairwise (fun x y => y.1 < x.1) stack

/-- Every loop-start not still pending on the stack, and every loop-end, is
already matched in the jump table; a loop-end's partner is never pending. -/
def TableInv (tokens : List Op) (jt : List Nat) (stack : List (Nat × Nat)) : Prop :=
  (∀ i, tokens[i]? = some Op.LoopStart → (∀ e ∈ stack, e.1 ≠ i) →
    ∃ j, Paired tokens jt i j) ∧
  (∀ j, tokens[j]? = some Op.LoopEnd →
    ∃ i, Paired tokens jt i j ∧ ∀ e ∈ stack, e.1 ≠ i)

/-- Combined invariant carried through the scan loop. -/
def ScanInv (tokens : List Op) (jt : List Nat) (stack : List (Nat × Nat)) : Prop :=
  StackInv tokens stack ∧ TableInv tokens jt stack

lemma paired_append (tokens : List Op) (jt : List Nat) (i j : Nat) (t : Op)
    (h : Paired tokens jt i j) : Paired (tokens ++ [t]) jt i j := by
  obtain ⟨h1, h2, h3, h4⟩ := h
  exact ⟨by rw [List.getElem?_append_left (getElem?_lt h1)]; exact h1,
         by rw [List.getElem?_append_left (getElem?_lt h2)]; exact h2, h3, h4⟩

lemma close_jt_getElem?_old (jt : List Nat) (a n k : Nat) (hk : k < jt.length)
    (hka : k ≠ a) (hkn : k ≠ n) (han : a ≤ n) :
    (((ensure_len jt (max a n)).set a n).set n a)[k]? = jt[k]? := by
  rw [List.getElem?_set_ne (fun h => hkn h.symm),
      List.getElem?_set_ne (fun h => hka h.symm),
      ensure_len_getElem?_left _ _ _ hk]

lemma close_jt_getElem?_a (jt : List Nat) (a n : Nat) (han : a < n) :
    (((ensure_len jt (max a n)).set a n).set n a)[a]? = some n := by
  have hlen : a < ((ensure_len jt (max a n)).set a n).length := by
    rw [List.length_set, ensure_len_length]
    have := Nat.le_max_right jt.length (max a n + 1)
    omega
  rw [List.getElem?_set_ne (fun h => (Nat.ne_of_lt han) h.symm),
      List.getElem?_set_self (by rw [List.length_set] at hlen; exact hlen)]

lemma close_jt_getElem?_n (jt : List Nat) (a n : Nat) (han : a < n) :
    (((ensure_len jt (max a n)).set a n).set n a)[n]? = some a := by
  have hlen : n < ((ensure_len jt (max a n)).set a n).length := by
    rw [List.length_set, ensure_len_length]
    have := Nat.le_max_right jt.length (max a n + 1)
    have := Nat.le_max_right a n
    omega
  rw [List.getElem?_set_self hlen]

/-- The pair written when a loop is closed: `a` (the popped loop-start) and
`n = tokens.length` (the index of the loop-end about to be appended). -/
lemma paired_close_new (tokens : List Op) (jt : List Nat) (a : Nat)
    (ha : a < tokens.length) (hta : tokens[a]? = some Op.LoopStart) :
    Paired (tokens ++ [Op.LoopEnd])
      (((ensure_len jt (max a tokens.length)).set a tokens.length).set tokens.length a)
      a tokens.length := by
  refine ⟨by rw [List.getElem?_append_left ha]; exact hta,
          List.getElem?_concat_length _ _, ?_, ?_⟩
  · exact close_jt_getElem?_a jt a tokens.length ha
  · exact close_jt_getElem?_n jt a tokens.length ha

/-- An already-written pair survives the write performed when a loop whose
start `a` is a different index is closed. -/
lemma paired_close_transfer (tokens : List Op) (jt : List Nat) (a i j : Nat)
    (hta : tokens[a]? = some Op.LoopStart)
    (hia : i ≠ a) (hp : Paired tokens jt i j) :
    Paired (tokens ++ [Op.LoopEnd])
      (((ensure_len jt (max a tokens.length)).set a tokens.length).set tokens.length a)
      i j := by
  obtain ⟨h1, h2, h3, h4⟩ := hp
  have hi : i < tokens.length := getElem?_lt h1
  have hj : j < tokens.length := getElem?_lt h2
  have hja : j ≠ a := by
    intro h
    rw [h, hta] at h2
    cases h2
  have han : a ≤ tokens.length := Nat.le_of_lt (getElem?_lt hta)
  refine ⟨by rw [List.getElem?_append_left hi]; exact h1,
          by rw [List.getElem?_append_left hj]; exact h2, ?_, ?_⟩
  · rw [close_jt_getElem?_old jt a tokens.length i (getElem?_lt h3) hia (Nat.ne_of_lt hi) han]
    exact h3
  · rw [close_jt_getElem?_old jt a tokens.length j (getElem?_lt h4) hja (Nat.ne_of_lt hj) han]
    exact h4

lemma scan_inv_push (tokens : List Op) (jt : List Nat) (stack : List (Nat × Nat))
    (pos : Nat) (h : ScanInv tokens jt stack) :
    ScanInv (tokens ++ [Op.LoopStart]) jt ((tokens.length, pos) :: stack) := by
  obtain ⟨⟨hs1, hs2⟩, ht1, ht2⟩ := h
  refine ⟨⟨?_, ?_⟩, ?_, ?_⟩
  · intro e he
    rcases List.mem_cons.mp he with he | he
    · subst he
      refine ⟨by simp, ?_⟩
      simp [getElem?_concat]
    · obtain ⟨hb, hg⟩ := hs1 e he
      exact ⟨by simp; omega, by rw [List.getElem?_append_left hb]; exact hg⟩
  · exact List.pairwise_cons.mpr ⟨fun e he => (hs1 e he).1, hs2⟩
  · intro i hi hne
    have hin : tokens.length ≠ i := hne _ (List.mem_cons_self _ _)
    rw [getElem?_concat] at hi
    split at hi
    · rename_i hlt
      obtain ⟨j, hp⟩ := ht1 i hi (fun e he => hne e (List.mem_cons_of_mem _ he))
      exact ⟨j, paired_append _ _ _ _ _ hp⟩
    · split at hi
      · rename_i h1 h2
        exact absurd h2.symm hin
      · cases hi
  · intro j hj
    rw [getElem?_concat] at hj
    split at hj
    · rename_i hlt
      obtain ⟨i, hp, hst⟩ := ht2 j hj
      have hilt : i < tokens.length := getElem?_lt hp.1
      refine ⟨i, paired_append _ _ _ _ _ hp, ?_⟩
      intro e he
      rcases List.mem_cons.mp he with he | he
      · subst he; exact Nat.ne_of_gt hilt
      · exact hst e he
    · split at hj
      · cases hj
      · cases hj

lemma scan_inv_other (tokens : List Op) (jt : List Nat) (stack : List (Nat × Nat))
    (t : Op) (ht1 : t ≠ Op.LoopStart) (ht2 : t ≠ Op.LoopEnd)
    (h : ScanInv tokens jt stack) : ScanInv (tokens ++ [t]) jt stack := by
  obtain ⟨⟨hs1, hs2⟩, hta, htb⟩ := h
  refine ⟨⟨?_, hs2⟩, ?_, ?_⟩
  · intro e he
    obtain ⟨hb, hg⟩ := hs1 e he
    exact ⟨by simp; omega, by rw [List.getElem?_append_left hb]; exact hg⟩
  · intro i hi hne
    rw [getElem?_concat] at hi
    split at hi
    · obtain ⟨j, hp⟩ := hta i hi hne
      exact ⟨j, paired_append _ _ _ _ _ hp⟩
    · split at hi
      · exact absurd (Option.some.inj hi) ht1
      · cases hi
  · intro j hj
    rw [getElem?_concat] at hj
    split at hj
    · obtain ⟨i, hp, hst⟩ := htb j hj
      exact ⟨i, paired_append _ _ _ _ _ hp, hst⟩
    · split at hj
      · exact absurd (Option.some.inj hj) ht2
      · cases hj

lemma scan_inv_close (tokens : List Op) (jt : List Nat) (a p : Nat)
    (stack2 : List (Nat × Nat)) (h : ScanInv tokens jt ((a, p) :: stack2)) :
    ScanInv (tokens ++ [Op.LoopEnd])
      (((ensure_len jt (max a tokens.length)).set a tokens.length).set tokens.length a)
      stack2 := by
  obtain ⟨⟨hs1, hs2⟩, hta, htb⟩ := h
  obtain ⟨ha, hga⟩ := hs1 (a, p) (List.mem_cons_self _ _)
  have hs2c := List.pairwise_cons.mp hs2
  refine ⟨⟨?_, hs2c.2⟩, ?_, ?_⟩
  · intro e he
    obtain ⟨hb, hg⟩ := hs1 e (List.mem_cons_of_mem _ he)
    exact ⟨by simp; omega, by rw [List.getElem?_append_left hb]; exact hg⟩
  · intro i hi hne
    rw [getElem?_concat] at hi
    split at hi
    · rename_i hlt
      by_cases hia : i = a
      · subst hia
        exact ⟨tokens.length, paired_close_new tokens jt i ha hga⟩
      · have hne2 : ∀ e ∈ (a, p) :: stack2, e.1 ≠ i := by
          intro e he
          rcases List.mem_cons.mp he with he | he
          · subst he; exact fun h => hia h.symm
          · exact hne e he
        obtain ⟨j, hp⟩ := hta i hi hne2
        exact ⟨j, paired_close_transfer tokens jt a i j hga hia hp⟩
    · split at hi
      · cases hi
      · cases hi
  · intro j hj
    rw [getElem?_concat] at hj
    split at hj
    · rename_i hlt
      obtain ⟨i, hp, hst⟩ := htb j hj
      have hia : i ≠ a := fun h => hst (a, p) (List.mem_cons_self _ _) h.symm
      exact ⟨i, paired_close_transfer tokens jt a i j hga hia hp,
             fun e he => hst e (List.mem_cons_of_mem _ he)⟩
    · split at hj
      · rename_i h1 h2
        subst h2
        refine ⟨a, paired_close_new tokens jt a ha hga, ?_⟩
        intro e he
        exact Nat.ne_of_lt (hs2c.1 e he)
      · cases hj

/-- The scan loop preserves the pairing invariant. -/
lemma scan_inv_loop : ∀ (l : List (Nat × Char)) (tokens : List Op) (jt : List Nat)
    (stack : List (Nat × Nat)) (t2 : List Op) (j2 : List Nat) (s2 : List (Nat × Nat)),
    ScanInv tokens jt stack →
    from_str_loop l tokens jt stack = Except.ok (t2, j2, s2) →
    ScanInv t2 j2 s2 := by
  intro l
  induction l with
  | nil =>
    intro tokens jt stack t2 j2 s2 hinv heq
    cases heq
    exact hinv
  | cons pc rest ih =>
    intro tokens jt stack t2 j2 s2 hinv heq
    obtain ⟨pos, ch⟩ := pc
    cases h : Op.from_char ch with
    | none =>
      simp only [from_str_loop, h] at heq
      exact ih _ _ _ _ _ _ hinv heq
    | some op =>
      cases op with
      | LoopStart =>
        simp only [from_str_loop, h] at heq
        exact ih _ _ _ _ _ _ (scan_inv_push _ _ _ _ hinv) heq
      | LoopEnd =>
        cases stack with
        | nil =>
          simp only [from_str_loop, h] at heq
          cases heq
        | cons s0 stack2 =>
          obtain ⟨a0, p0⟩ := s0
          simp only [from_str_loop, h] at heq
          exact ih _ _ _ _ _ _ (scan_inv_close _ _ _ _ _ hinv) heq
      | IncPtr =>
        simp only [from_str_loop, h] at heq
        exact ih _ _ _ _ _ _ (scan_inv_other _ _ _ _ (by simp) (by simp) hinv) heq
      | DecPtr =>
        simp only [from_str_loop, h] at heq
        exact ih _ _ _ _ _ _ (scan_inv_other _ _ _ _ (by simp) (by simp) hinv) heq
      | IncByte =>
        simp only [from_str_loop, h] at heq
        exact ih _ _ _ _ _ _ (scan_inv_other _ _ _ _ (by simp) (by simp) hinv) heq
      | DecByte =>
        simp only [from_str_loop, h] at heq
        exact ih _ _ _ _ _ _ (scan_inv_other _ _ _ _ (by simp) (by simp) hinv) heq
      | OutByte =>
        simp only [from_str_loop, h] at heq
        exact ih _ _ _ _ _ _ (scan_inv_other _ _ _ _ (by simp) (by simp) hinv) heq
      | InByte =>
        simp only [from_str_loop, h] at heq
        exact ih _ _ _ _ _ _ (scan_inv_other _ _ _ _ (by simp) (by simp) hinv) heq

/-- The invariant holds of the translator's final output (where the stack is
empty, so every loop-start is matched). -/
lemma from_str_ok_inv (input : List Char) (ir : IR)
    (h : IR.from_str input = Except.ok ir) :
    ScanInv ir.tokens ir.jump_table [] := by
  unfold IR.from_str at h
  cases heq : from_str_loop (char_indices input) [] [] [] with
  | error e => rw [heq] at h; cases h
  | ok v =>
    obtain ⟨t2, j2, s2⟩ := v
    rw [heq] at h
    cases s2 with
    | cons s0 rest =>
      obtain ⟨a0, p0⟩ := s0
      cases h
    | nil =>
      cases h
      have hinv : ScanInv ([] : List Op) ([] : List Nat) ([] : List (Nat × Nat)) := by
        refine ⟨⟨fun e he => absurd he (List.not_mem_nil e), List.Pairwise.nil⟩, ?_, ?_⟩
        · intro i hi _
          simp at hi
        · intro j hj
          simp at hj
      exact scan_inv_loop _ _ _ _ _ _ _ hinv heq

/-- C1: for every source string the translator accepts, the jump table is
symmetrically paired: if the instruction at index i is a loop-start and
jump_table[i] = j, then the instruction at j is a loop-end and
jump_table[j] = i. -/
theorem c1_jump_table_symmetric_pairing (input : List Char) (ir : IR)
    (h : IR.from_str input = Except.ok ir) (i j : Nat)
    (hi : ir.tokens[i]? = some Op.LoopStart)
    (hj : ir.jump_table[i]? = some j) :
    ir.tokens[j]? = some Op.LoopEnd ∧ ir.jump_table[j]? = some i := by
  obtain ⟨_, ht1, _⟩ := from_str_ok_inv input ir h
  obtain ⟨j0, hp1, hp2, hp3, hp4⟩ := ht1 i hi (fun e he => absurd he (List.not_mem_nil e))
  have hjj : j0 = j := Option.some.inj (hp3.symm.trans hj)
  subst hjj
  exact ⟨hp2, hp4⟩

/-- Witness for C1 at the source "[]": the pair (0, 1) is symmetric. -/
theorem c1_jump_table_symmetric_pairing_witness :
    IR.from_str ['[', ']'] = Except.ok ⟨[Op.LoopStart, Op.LoopEnd], [1, 0]⟩ ∧
    (([Op.LoopStart, Op.LoopEnd] : List Op)[1]? = some Op.LoopEnd ∧
      ([1, 0] : List Nat)[1]? = some 0) :=
  ⟨rfl, c1_jump_table_symmetric_pairing ['[', ']']
    ⟨[Op.LoopStart, Op.LoopEnd], [1, 0]⟩ rfl 0 1 rfl rfl⟩

/-- C2 counterexample: the accepted source "+" yields one instruction but an
empty jump table, so the jump table is shorter than the instruction
sequence. -/
theorem c2_counterexample_jump_table_shorter :
    IR.from_str ['+'] = Except.ok ⟨[Op.IncByte], []⟩ ∧
    ([] : List Nat).length < ([Op.IncByte] : List Op).length :=
  ⟨rfl, by decide⟩

/-- C2 amended: for every accepted source string, the jump table covers every
index holding a loop-start or loop-end instruction (such indices are within
its bounds); it can be shorter than the instruction sequence when trailing
instructions after the last loop-end are not loops. -/
theorem c2_amended_jump_table_covers_loops (input : List Char) (ir : IR)
    (h : IR.from_str input = Except.ok ir) (i : Nat) (op : Op)
    (hi : ir.tokens[i]? = some op) (hop : op = Op.LoopStart ∨ op = Op.LoopEnd) :
    i < ir.jump_table.length := by
  obtain ⟨_, ht1, ht2⟩ := from_str_ok_inv input ir h
  rcases hop with hop | hop
  · subst hop
    obtain ⟨j, hp⟩ := ht1 i hi (fun e he => absurd he (List.not_mem_nil e))
    exact getElem?_lt hp.2.2.1
  · subst hop
    obtain ⟨i0, hp, _⟩ := ht2 i hi
    exact getElem?_lt hp.2.2.2

/-- Witness for the amended C2 at the source "[]": index 0 holds a loop-start
and is within the jump table's bounds. -/
theorem c2_amended_jump_table_covers_loops_witness :
    IR.from_str ['[', ']'] = Except.ok ⟨[Op.LoopStart, Op.LoopEnd], [1, 0]⟩ ∧
    0 < ([1, 0] : List Nat).length :=
  ⟨rfl, c2_amended_jump_table_covers_loops ['[', ']']
    ⟨[Op.LoopStart, Op.LoopEnd], [1, 0]⟩ rfl 0 Op.LoopStart rfl (Or.inl rfl)⟩

/-- C6: when the scan reaches a loop-end symbol while the pending-loop-start
stack is empty, translation fails immediately with UnexpectedLoopEnd at that
symbol's source position; the remaining characters (the universally
quantified `rest`) are never consulted and no partial output is produced. -/
theorem c6_unexpected_loop_end_immediate (input : List Char)
    (pre rest : List (Nat × Char)) (pos : Nat) (tokens : List Op) (jt : List Nat)
    (hsplit : char_indices input = pre ++ (pos, ']') :: rest)
    (hpre : from_str_loop pre [] [] [] = Except.ok (tokens, jt, [])) :
    IR.from_str input = Except.error ⟨pos, ParseErrorKind.UnexpectedLoopEnd⟩ := by
  unfold IR.from_str
  rw [hsplit, from_str_loop_append, hpre]
  simp only [from_str_loop, from_char_rbracket]

/-- Witness for C6: translating "]" alone fails with UnexpectedLoopEnd at
position 0. -/
theorem c6_unexpected_loop_end_immediate_witness :
    IR.from_str [']'] = Except.error ⟨0, ParseErrorKind.UnexpectedLoopEnd⟩ :=
  c6_unexpected_loop_end_immediate [']'] [] [] 0 [] [] rfl rfl

/-- C7: when the scan completes with a non-empty pending-loop-start stack,
translation fails with UnclosedLoop at the source position recorded for the
most recently pushed unmatched loop-start (the stack's head), and no partial
output is produced. -/
theorem c7_unclosed_loop_innermost (input : List Char) (tokens : List Op)
    (jt : List Nat) (a pos : Nat) (stack2 : List (Nat × Nat))
    (hloop : from_str_loop (char_indices input) [] [] [] =
      Except.ok (tokens, jt, (a, pos) :: stack2)) :
    IR.from_str input = Except.error ⟨pos, ParseErrorKind.UnclosedLoop⟩ := by
  unfold IR.from_str
  rw [hloop]

/-- Witness for C7: translating "[" alone fails with UnclosedLoop at
position 0. -/
theorem c7_unclosed_loop_innermost_witness :
    IR.from_str ['['] = Except.error ⟨0, ParseErrorKind.UnclosedLoop⟩ :=
  c7_unclosed_loop_innermost ['['] [Op.LoopStart] [] 0 0 [] rfl

/-! ## Source positions are UTF-8 byte offsets -/

/-- Total UTF-8 byte length of a character sequence. -/
def utf8_len (s : List Char) : Nat := (s.map Char.utf8Size).sum

lemma utf8_len_cons (c : Char) (s : List Char) :
    utf8_len (c :: s) = c.utf8Size + utf8_len s := by
  simp [utf8_len]

lemma utf8_len_all_one (s : List Char) (h : ∀ c ∈ s, Char.utf8Size c = 1) :
    utf8_len s = s.length := by
  induction s with
  | nil => rfl
  | cons c rest ih =>
    rw [utf8_len_cons, h c (List.mem_cons_self _ _),
        ih (fun x hx => h x (List.mem_cons_of_mem _ hx))]
    simp [Nat.add_comm]

/-- Every position produced by `char_indices_from` is `off` plus the UTF-8
length of some proper prefix of the characters. -/
lemma mem_char_indices_from (s : List Char) : ∀ (off : Nat) (pc : Nat × Char),
    pc ∈ char_indices_from off s →
    ∃ k, k < s.length ∧ pc.1 = off + utf8_len (s.take k) := by
  induction s with
  | nil =>
    intro off pc h
    cases h
  | cons c rest ih =>
    intro off pc h
    rcases List.mem_cons.mp h with h | h
    · refine ⟨0, by simp, ?_⟩
      subst h
      simp [utf8_len]
    · obtain ⟨k, hk, he⟩ := ih (off + c.utf8Size) pc h
      refine ⟨k + 1, by simp; omega, ?_⟩
      rw [he, List.take_succ_cons, utf8_len_cons]
      omega

/-- Any error the scan loop itself returns carries a position of one of the
scanned characters. -/
lemma from_str_loop_error_pos (P : Nat → Prop) :
    ∀ (l : List (Nat × Char)) (tokens : List Op) (jt : List Nat)
      (stack : List (Nat × Nat)) (e : ParseError),
      (∀ pc ∈ l, P pc.1) →
      from_str_loop l tokens jt stack = Except.error e → P e.token_pos := by
  intro l
  induction l with
  | nil =>
    intro tokens jt stack e _ heq
    cases heq
  | cons pc rest ih =>
    intro tokens jt stack e hl heq
    obtain ⟨pos, ch⟩ := pc
    have hrest : ∀ pc ∈ rest, P pc.1 :=
      fun pc hpc => hl pc (List.mem_cons_of_mem _ hpc)
    cases h : Op.from_char ch with
    | none =>
      simp only [from_str_loop, h] at heq
      exact ih _ _ _ _ hrest heq
    | some op =>
      cases op with
      | LoopStart =>
        simp only [from_str_loop, h] at heq
        exact ih _ _ _ _ hrest heq
      | LoopEnd =>
        cases stack with
        | nil =>
          simp only [from_str_loop, h] at heq
          cases heq
          exact hl (pos, ch) (List.mem_cons_self _ _)
        | cons s0 stack2 =>
          obtain ⟨a0, p0⟩ := s0
          simp only [from_str_loop, h] at heq
          exact ih _ _ _ _ hrest heq
      | IncPtr =>
        simp only [from_str_loop, h] at heq
        exact ih _ _ _ _ hrest heq
      | DecPtr =>
        simp only [from_str_loop, h] at heq
        exact ih _ _ _ _ hrest heq
      | IncByte =>
        simp only [from_str_loop, h] at heq
        exact ih _ _ _ _ hrest heq
      | DecByte =>
        simp only [from_str_loop, h] at heq
        exact ih _ _ _ _ hrest heq
      | OutByte =>
        simp only [from_str_loop, h] at heq
        exact ih _ _ _ _ hrest heq
      | InByte =>
        simp only [from_str_loop, h] at heq
        exact ih _ _ _ _ hrest heq

/-- Every stack entry surviving the scan carries either an initial-stack
position or the position of one of the scanned characters. -/
lemma from_str_loop_stack_pos (P : Nat → Prop) :
    ∀ (l : List (Nat × Char)) (tokens : List Op) (jt : List Nat)
      (stack : List (Nat × Nat)) (t2 : List Op) (j2 : List Nat)
      (s2 : List (Nat × Nat)),
      (∀ pc ∈ l, P pc.1) → (∀ en ∈ stack, P en.2) →
      from_str_loop l tokens jt stack = Except.ok (t2, j2, s2) →
      ∀ en ∈ s2, P en.2 := by
  intro l
  induction l with
  | nil =>
    intro tokens jt stack t2 j2 s2 _ hstack heq
    cases heq
    exact hstack
  | cons pc rest ih =>
    intro tokens jt stack t2 j2 s2 hl hstack heq
    obtain ⟨pos, ch⟩ := pc
    have hrest : ∀ pc ∈ rest, P pc.1 :=
      fun pc hpc => hl pc (List.mem_cons_of_mem _ hpc)
    cases h : Op.from_char ch with
    | none =>
      simp only [from_str_loop, h] at heq
      exact ih _ _ _ _ _ _ hrest hstack heq
    | some op =>
      cases op with
      | LoopStart =>
        simp only [from_str_loop, h] at heq
        refine ih _ _ _ _ _ _ hrest ?_ heq
        intro en hen
        rcases List.mem_cons.mp hen with hen | hen
        · subst hen
          exact hl (pos, ch) (List.mem_cons_self _ _)
        · exact hstack en hen
      | LoopEnd =>
        cases stack with
        | nil =>
          simp only [from_str_loop, h] at heq
          cases heq
        | cons s0 stack2 =>
          obtain ⟨a0, p0⟩ := s0
          simp only [from_str_loop, h] at heq
          exact ih _ _ _ _ _ _ hrest
            (fun en hen => hstack en (List.mem_cons_of_mem _ hen)) heq
      | IncPtr =>
        simp only [from_str_loop, h] at heq
        exact ih _ _ _ _ _ _ hrest hstack heq
      | DecPtr =>
        simp only [from_str_loop, h] at heq
        exact ih _ _ _ _ _ _ hrest hstack heq
      | IncByte =>
        simp only [from_str_loop, h] at heq
        exact ih _ _ _ _ _ _ hrest hstack heq
      | DecByte =>
        simp only [from_str_loop, h] at heq
        exact ih _ _ _ _ _ _ hrest hstack heq
      | OutByte =>
        simp only [from_str_loop, h] at heq
        exact ih _ _ _ _ _ _ hrest hstack heq
      | InByte =>
        simp only [from_str_loop, h] at heq
        exact ih _ _ _ _ _ _ hrest hstack heq

/-- C5 counterexample: on the two-character source "é]" the translator's
error position is 2, the UTF-8 byte offset of the ']' — not an index into
the source's sequence of characters (which has only indices 0 and 1). -/
theorem c5_counterexample_byte_offset :
    IR.from_str [Char.ofNat 233, ']'] =
      Except.error ⟨2, ParseErrorKind.UnexpectedLoopEnd⟩ ∧
    ¬(2 < ([Char.ofNat 233, ']'] : List Char).length) :=
  ⟨rfl, by decide⟩

/-- C5 amended: the position carried by a ParseError is the UTF-8 byte
offset of the offending character in the source (the sum of the UTF-8 sizes
of the preceding characters); when every preceding character is a single
UTF-8 byte (e.g. for ASCII sources) this coincides with the character
index. -/
theorem c5_amended_error_positions_are_byte_offsets (input : List Char)
    (e : ParseError) (h : IR.from_str input = Except.error e) :
    ∃ k, k < input.length ∧ e.token_pos = utf8_len (input.take k) ∧
      ((∀ c ∈ input.take k, Char.utf8Size c = 1) → e.token_pos = k) := by
  have hP : ∃ k, k < input.length ∧ e.token_pos = utf8_len (input.take k) := by
    have hchars : ∀ pc ∈ char_indices input,
        ∃ k, k < input.length ∧ pc.1 = utf8_len (input.take k) := by
      intro pc hpc
      obtain ⟨k, hk, he⟩ := mem_char_indices_from input 0 pc hpc
      exact ⟨k, hk, by omega⟩
    unfold IR.from_str at h
    cases heq : from_str_loop (char_indices input) [] [] [] with
    | error e0 =>
      rw [heq] at h
      cases h
      exact from_str_loop_error_pos
        (fun p => ∃ k, k < input.length ∧ p = utf8_len (input.take k))
        _ _ _ _ _ hchars heq
    | ok v =>
      obtain ⟨t2, j2, s2⟩ := v
      rw [heq] at h
      cases s2 with
      | nil => cases h
      | cons s0 rest =>
        obtain ⟨a0, p0⟩ := s0
        cases h
        exact from_str_loop_stack_pos
          (fun p => ∃ k, k < input.length ∧ p = utf8_len (input.take k))
          _ _ _ _ _ _ _ hchars
          (fun en hen => absurd hen (List.not_mem_nil en)) heq
          (a0, p0) (List.mem_cons_self _ _)
  obtain ⟨k, hk, he⟩ := hP
  refine ⟨k, hk, he, ?_⟩
  intro hones
  rw [he, utf8_len_all_one _ hones, List.length_take]
  omega

/-- Witness for the amended C5: translating "]" fails at byte offset 0,
which is `utf8_len` of the empty prefix and (all sizes being 1) equals the
character index 0. -/
theorem c5_amended_error_positions_are_byte_offsets_witness :
    IR.from_str [']'] = Except.error ⟨0, ParseErrorKind.UnexpectedLoopEnd⟩ ∧
    (∃ k, k < ([']'] : List Char).length ∧
      (0 : Nat) = utf8_len (([']'] : List Char).take k) ∧
      ((∀ c ∈ ([']'] : List Char).take k, Char.utf8Size c = 1) → (0 : Nat) = k)) :=
  ⟨rfl, c5_amended_error_positions_are_byte_offsets [']']
    ⟨0, ParseErrorKind.UnexpectedLoopEnd⟩ rfl⟩

/-! ## Execution engine: stepping lemmas -/

/-- A successful non-halted step factors into the dispatch (`step_exec`)
followed by the unconditional instruction-pointer advance. -/
lemma step_some_elim (s : VM) (b : Bool) (s2 : VM) (op : Op)
    (hop : s.ir.tokens[s.current_token_idx]? = some op)
    (hstep : VM.step s = some (b, s2)) :
    ∃ s1, VM.step_exec s op = some s1 ∧
      s2 = { s1 with current_token_idx := s1.current_token_idx + 1 } ∧
      b = decide (s1.current_token_idx + 1 < s1.ir.tokens.length) := by
  unfold VM.step at hstep
  rw [if_pos (getElem?_lt hop)] at hstep
  simp only [hop] at hstep
  cases he : VM.step_exec s op with
  | none =>
    simp only [he] at hstep
    cases hstep
  | some s1 =>
    simp only [he] at hstep
    split at hstep
    · cases hstep
      exact ⟨s1, rfl, rfl, rfl⟩
    · cases hstep

/-- Dispatch of any instruction other than the two loop boundaries leaves
the instruction pointer unchanged. -/
lemma step_exec_idx_other (s s1 : VM) (op : Op)
    (h1 : op ≠ Op.LoopStart) (h2 : op ≠ Op.LoopEnd)
    (hexec : VM.step_exec s op = some s1) :
    s1.current_token_idx = s.current_token_idx := by
  cases op <;> simp only [VM.step_exec] at hexec <;>
    first
      | (exact absurd rfl h1)
      | (exact absurd rfl h2)
      | (split at hexec <;> cases hexec <;> rfl)

/-- C8: whenever the instruction pointer is at or past the end of the
instruction sequence, `step()` returns the state unchanged (tape, tape
pointer, instruction pointer and I/O traces untouched) and reports
completion, and so does every subsequent `step()` call: once halted, the
engine never returns to a running state. -/
theorem c8_halted_steps_idempotent (s : VM)
    (h : s.ir.tokens.length ≤ s.current_token_idx) :
    VM.step s = some (false, s) ∧ ∀ n, VM.step_iter n s = some (false, s) := by
  have hstep : VM.step s = some (false, s) := by
    unfold VM.step
    rw [if_neg (by omega)]
  refine ⟨hstep, ?_⟩
  intro n
  induction n with
  | zero => exact hstep
  | succ n ih =>
    rw [VM.step_iter, hstep]
    exact ih

/-- A concrete already-halted engine state: one instruction, pointer past
the end. -/
def halted_vm : VM :=
  ⟨⟨[Op.IncByte], []⟩, [0], 0, 1, fun _ => 0, 0, []⟩

/-- Witness for C8 at a concrete halted state. -/
theorem c8_halted_steps_idempotent_witness :
    halted_vm.ir.tokens.length ≤ halted_vm.current_token_idx ∧
    VM.step halted_vm = some (false, halted_vm) ∧
    VM.step_iter 3 halted_vm = some (false, halted_vm) :=
  ⟨by decide,
   (c8_halted_steps_idempotent halted_vm (by decide)).1,
   (c8_halted_steps_idempotent halted_vm (by decide)).2 3⟩

/-- Dispatch of a loop-start with a zero cell (or a loop-end with a non-zero
cell) sets the instruction pointer to the jump-table entry at the current
index. -/
lemma step_exec_loop_taken (s s1 : VM) (op : Op) (c : Nat)
    (hcell : s.memory_buffer[s.memory_buffer_ptr]? = some c)
    (htaken : (op = Op.LoopStart ∧ c = 0) ∨ (op = Op.LoopEnd ∧ c ≠ 0))
    (hexec : VM.step_exec s op = some s1) :
    ∃ j, s.ir.jump_table[s.current_token_idx]? = some j ∧
      s1.current_token_idx = j := by
  rcases htaken with ⟨hop, hc⟩ | ⟨hop, hc⟩ <;> subst hop <;>
    simp only [VM.step_exec, hcell] at hexec
  · rw [if_pos hc] at hexec
    cases hj : s.ir.jump_table[s.current_token_idx]? with
    | none =>
      simp only [hj] at hexec
      cases hexec
    | some j =>
      simp only [hj] at hexec
      cases hexec
      exact ⟨j, rfl, rfl⟩
  · rw [if_pos hc] at hexec
    cases hj : s.ir.jump_table[s.current_token_idx]? with
    | none =>
      simp only [hj] at hexec
      cases hexec
    | some j =>
      simp only [hj] at hexec
      cases hexec
      exact ⟨j, rfl, rfl⟩

/-- Dispatch of a loop-start with a non-zero cell (or a loop-end with a zero
cell) leaves the state unchanged. -/
lemma step_exec_loop_not_taken (s s1 : VM) (op : Op) (c : Nat)
    (hcell : s.memory_buffer[s.memory_buffer_ptr]? = some c)
    (hnot : (op = Op.LoopStart ∧ c ≠ 0) ∨ (op = Op.LoopEnd ∧ c = 0))
    (hexec : VM.step_exec s op = some s1) : s1 = s := by
  rcases hnot with ⟨hop, hc⟩ | ⟨hop, hc⟩ <;> subst hop <;>
    simp only [VM.step_exec, hcell] at hexec
  · rw [if_neg hc] at hexec
    cases hexec
    rfl
  · rw [if_neg (by simp [hc])] at hexec
    cases hexec
    rfl

/-- C3: a `step()` that executes a loop-start with a zero cell, or a
loop-end with a non-zero cell, leaves the instruction pointer at
`jump_table[i] + 1`; in every other case (the six non-loop instructions, a
loop-start with a non-zero cell, a loop-end with a zero cell) it leaves the
instruction pointer at `i + 1`. -/
theorem c3_instruction_pointer_after_step (s : VM) (b : Bool) (s2 : VM) (op : Op)
    (hstep : VM.step s = some (b, s2))
    (hop : s.ir.tokens[s.current_token_idx]? = some op) :
    ((op ≠ Op.LoopStart ∧ op ≠ Op.LoopEnd) →
        s2.current_token_idx = s.current_token_idx + 1) ∧
    (op = Op.LoopStart →
        (s.memory_buffer[s.memory_buffer_ptr]? = some 0 →
          ∃ j, s.ir.jump_table[s.current_token_idx]? = some j ∧
            s2.current_token_idx = j + 1) ∧
        (∀ c, s.memory_buffer[s.memory_buffer_ptr]? = some c → c ≠ 0 →
          s2.current_token_idx = s.current_token_idx + 1)) ∧
    (op = Op.LoopEnd →
        (∀ c, s.memory_buffer[s.memory_buffer_ptr]? = some c → c ≠ 0 →
          ∃ j, s.ir.jump_table[s.current_token_idx]? = some j ∧
            s2.current_token_idx = j + 1) ∧
        (s.memory_buffer[s.memory_buffer_ptr]? = some 0 →
          s2.current_token_idx = s.current_token_idx + 1)) := by
  obtain ⟨s1, hexec, hs2, hb⟩ := step_some_elim s b s2 op hop hstep
  subst hs2
  refine ⟨?_, ?_, ?_⟩
  · rintro ⟨h1, h2⟩
    simp only [step_exec_idx_other s s1 op h1 h2 hexec]
  · intro hls
    subst hls
    constructor
    · intro hcell
      obtain ⟨j, hj, hidx⟩ :=
        step_exec_loop_taken s s1 Op.LoopStart 0 hcell (Or.inl ⟨rfl, rfl⟩) hexec
      exact ⟨j, hj, by simp [hidx]⟩
    · intro c hcell hc
      have hs1 := step_exec_loop_not_taken s s1 Op.LoopStart c hcell (Or.inl ⟨rfl, hc⟩) hexec
      simp [hs1]
  · intro hle
    subst hle
    constructor
    · intro c hcell hc
      obtain ⟨j, hj, hidx⟩ :=
        step_exec_loop_taken s s1 Op.LoopEnd c hcell (Or.inr ⟨rfl, hc⟩) hexec
      exact ⟨j, hj, by simp [hidx]⟩
    · intro hcell
      have hs1 := step_exec_loop_not_taken s s1 Op.LoopEnd 0 hcell (Or.inr ⟨rfl, rfl⟩) hexec
      simp [hs1]

/-- Dispatch reads the jump table only at the current instruction index and
only for the two loop instructions: replacing the jump table by any `jt2`
that agrees there (when the token is a loop boundary) commutes with
dispatch. -/
lemma step_exec_jump_table_frame (s : VM) (jt2 : List Nat) (op : Op)
    (hagree : (op = Op.LoopStart ∨ op = Op.LoopEnd) →
      jt2[s.current_token_idx]? = s.ir.jump_table[s.current_token_idx]?) :
    VM.step_exec { s with ir := { s.ir with jump_table := jt2 } } op =
      Option.map (fun s1 => { s1 with ir := { s1.ir with jump_table := jt2 } })
        (VM.step_exec s op) := by
  cases op with
  | IncPtr =>
    simp only [VM.step_exec]
    split <;> rfl
  | DecPtr =>
    simp only [VM.step_exec]
    split <;> rfl
  | IncByte =>
    simp only [VM.step_exec]
    cases s.memory_buffer[s.memory_buffer_ptr]? <;> rfl
  | DecByte =>
    simp only [VM.step_exec]
    cases s.memory_buffer[s.memory_buffer_ptr]? <;> rfl
  | OutByte =>
    simp only [VM.step_exec]
    cases s.memory_buffer[s.memory_buffer_ptr]? <;> rfl
  | InByte =>
    simp only [VM.step_exec]
    split <;> rfl
  | LoopStart =>
    have hjt : jt2[s.current_token_idx]? = s.ir.jump_table[s.current_token_idx]? :=
      hagree (Or.inl rfl)
    simp only [VM.step_exec]
    cases s.memory_buffer[s.memory_buffer_ptr]? with
    | none => rfl
    | some c =>
      by_cases hc : c = 0
      · simp only [if_pos hc, hjt]
        cases s.ir.jump_table[s.current_token_idx]? <;> rfl
      · simp only [if_neg hc]
        rfl
  | LoopEnd =>
    have hjt : jt2[s.current_token_idx]? = s.ir.jump_table[s.current_token_idx]? :=
      hagree (Or.inr rfl)
    simp only [VM.step_exec]
    cases s.memory_buffer[s.memory_buffer_ptr]? with
    | none => rfl
    | some c =>
      by_cases hc : c = 0
      · simp only [hc]
        rfl
      · simp only [if_pos hc, hjt]
        cases s.ir.jump_table[s.current_token_idx]? <;> rfl

/-- `step()` reads the jump table only at the current instruction index and
only when the instruction there is a loop boundary. -/
lemma vm_step_jump_table_frame (s : VM) (jt2 : List Nat)
    (hagree : (∃ op, s.ir.tokens[s.current_token_idx]? = some op ∧
        (op = Op.LoopStart ∨ op = Op.LoopEnd)) →
      jt2[s.current_token_idx]? = s.ir.jump_table[s.current_token_idx]?) :
    VM.step { s with ir := { s.ir with jump_table := jt2 } } =
      Option.map
        (fun bs => (bs.1, { bs.2 with ir := { bs.2.ir with jump_table := jt2 } }))
        (VM.step s) := by
  by_cases hlt : s.current_token_idx < s.ir.tokens.length
  · cases htok : s.ir.tokens[s.current_token_idx]? with
    | none =>
      have := List.getElem?_eq_none_iff.mp htok
      omega
    | some op =>
      have hexec := step_exec_jump_table_frame s jt2 op
        (fun h => hagree ⟨op, htok, h⟩)
      cases he : VM.step_exec s op with
      | none =>
        unfold VM.step
        rw [if_pos hlt, if_pos hlt]
        simp only [htok, hexec, he]
        rfl
      | some s1 =>
        unfold VM.step
        rw [if_pos hlt, if_pos hlt]
        simp only [htok, hexec, he, Option.map_some']
        split <;> rfl
  · unfold VM.step
    rw [if_neg hlt, if_neg hlt]
    rfl

/-- A concrete engine state about to execute a loop-start with a zero
cell. -/
def c3_vm : VM :=
  ⟨⟨[Op.LoopStart, Op.LoopEnd], [1, 0]⟩, [0], 0, 0, fun _ => 0, 0, []⟩

/-- Witness for C3 at a concrete state: a loop-start with a zero cell leaves
the instruction pointer at jump_table[0] + 1 = 2. -/
theorem c3_instruction_pointer_after_step_witness :
    VM.step c3_vm = some (false, { c3_vm with current_token_idx := 2 }) ∧
    (∃ j, c3_vm.ir.jump_table[c3_vm.current_token_idx]? = some j ∧
      ({ c3_vm with current_token_idx := 2 } : VM).current_token_idx = j + 1) :=
  ⟨rfl,
   ((c3_instruction_pointer_after_step c3_vm false
      { c3_vm with current_token_idx := 2 } Op.LoopStart rfl rfl).2.1 rfl).1 rfl⟩

/-- C4: (a) `step()` reads the jump table only at the current instruction
index and only when the instruction there is a loop-start or loop-end — its
result is unchanged (up to carrying the table along) under any replacement
jump table agreeing at that single relevant entry; (b) in every translator
output, each index holding a loop instruction is within the jump table's
bounds and holds the entry written by the translator: the matching loop
boundary, pointing back. Hence the engine never reads an unused or
out-of-bounds jump-table entry. -/
theorem c4_engine_reads_only_written_entries :
    (∀ (s : VM) (jt2 : List Nat),
      ((∃ op, s.ir.tokens[s.current_token_idx]? = some op ∧
          (op = Op.LoopStart ∨ op = Op.LoopEnd)) →
        jt2[s.current_token_idx]? = s.ir.jump_table[s.current_token_idx]?) →
      VM.step { s with ir := { s.ir with jump_table := jt2 } } =
        Option.map
          (fun bs => (bs.1, { bs.2 with ir := { bs.2.ir with jump_table := jt2 } }))
          (VM.step s)) ∧
    (∀ (input : List Char) (ir : IR), IR.from_str input = Except.ok ir →
      ∀ (i : Nat) (op : Op), ir.tokens[i]? = some op →
        op = Op.LoopStart ∨ op = Op.LoopEnd →
        ∃ j, ir.jump_table[i]? = some j ∧ ir.jump_table[j]? = some i ∧
          (op = Op.LoopStart → ir.tokens[j]? = some Op.LoopEnd) ∧
          (op = Op.LoopEnd → ir.tokens[j]? = some Op.LoopStart)) := by
  constructor
  · exact vm_step_jump_table_frame
  · intro input ir h i op hi hop
    obtain ⟨_, ht1, ht2⟩ := from_str_ok_inv input ir h
    rcases hop with hop | hop
    · subst hop
      obtain ⟨j, hp1, hp2, hp3, hp4⟩ := ht1 i hi (fun e he => absurd he (List.not_mem_nil e))
      refine ⟨j, hp3, hp4, fun _ => hp2, fun habs => Op.noConfusion habs⟩
    · subst hop
      obtain ⟨i0, ⟨hp1, hp2, hp3, hp4⟩, _⟩ := ht2 i hi
      refine ⟨i0, hp4, hp3, fun habs => Op.noConfusion habs, fun _ => hp1⟩

/-! ## The interpreter of src/interpreter.rs -/

/-- `Token` from the parser module: src/interpreter.rs dispatches
exhaustively (no wildcard arm) on exactly these eight variants. -/
inductive Token where
  | IncPtr
  | DecPtr
  | IncByte
  | DecByte
  | OutByte
  | InByte
  | LoopStart
  | LoopEnd
deriving DecidableEq

/-- `Ast` as consumed by `Interpreter::step`: a token sequence and a jump
table, accessed exactly like `IR`. -/
structure Ast where
  tokens : List Token
  jump_table : List Nat

/-- `Interpreter` from src/interpreter.rs, I/O modelled as in `VM`. -/
structure Interpreter where
  ast : Ast
  memory_buffer : List Nat
  memory_buffer_ptr : Nat
  current_token_idx : Nat
  in_fn : Nat → Nat
  in_calls : Nat
  out_buf : List Nat

/-- The dispatch part of `Interpreter::step` (src/interpreter.rs),
transcribed exactly like `VM.step_exec`. -/
def Interpreter.step_exec (s : Interpreter) (current_token : Token) :
    Option Interpreter :=
  match current_token with
  | Token.IncPtr =>
      if s.memory_buffer_ptr + 1 < U32_SIZE then
        some { s with memory_buffer_ptr := s.memory_buffer_ptr + 1 }
      else none
  | Token.DecPtr =>
      if 0 < s.memory_buffer_ptr then
        some { s with memory_buffer_ptr := s.memory_buffer_ptr - 1 }
      else none
  | Token.IncByte =>
      match s.memory_buffer[s.memory_buffer_ptr]? with
      | some c => some { s with
          memory_buffer := s.memory_buffer.set s.memory_buffer_ptr ((c + 1) % 256) }
      | none => none
  | Token.DecByte =>
      match s.memory_buffer[s.memory_buffer_ptr]? with
      | some c => some { s with
          memory_buffer := s.memory_buffer.set s.memory_buffer_ptr ((c + 255) % 256) }
      | none => none
  | Token.OutByte =>
      match s.memory_buffer[s.memory_buffer_ptr]? with
      | some c => some { s with out_buf := s.out_buf ++ [c] }
      | none => none
  | Token.InByte =>
      if s.memory_buffer_ptr < s.memory_buffer.length then
        some { s with
          memory_buffer := s.memory_buffer.set s.memory_buffer_ptr (s.in_fn s.in_calls % 256),
          in_calls := s.in_calls + 1 }
      else none
  | Token.LoopStart =>
      match s.memory_buffer[s.memory_buffer_ptr]? with
      | some c =>
          if c = 0 then
            match s.ast.jump_table[s.current_token_idx]? with
            | some j => some { s with current_token_idx := j }
            | none => none
          else some s
      | none => none
  | Token.LoopEnd =>
      match s.memory_buffer[s.memory_buffer_ptr]? with
      | some c =>
          if c ≠ 0 then
            match s.ast.jump_table[s.current_token_idx]? with
            | some j => some { s with current_token_idx := j }
            | none => none
          else some s
      | none => none

/-- `Interpreter::step` from src/interpreter.rs. -/
def Interpreter.step (s : Interpreter) : Option (Bool × Interpreter) :=
  if s.current_token_idx < s.ast.tokens.length then
    match s.ast.tokens[s.current_token_idx]? with
    | some current_token =>
        match Interpreter.step_exec s current_token with
        | some s1 =>
            if s1.current_token_idx + 1 < U32_SIZE then
              some (decide (s1.current_token_idx + 1 < s1.ast.tokens.length),
                    { s1 with current_token_idx := s1.current_token_idx + 1 })
            else none
        | none => none
    | none => none
  else
    some (false, s)

/-- The evident bijection between the VM's `Op` and the interpreter's
`Token`. -/
def Token.of_op : Op → Token
  | Op.IncPtr => Token.IncPtr
  | Op.DecPtr => Token.DecPtr
  | Op.IncByte => Token.IncByte
  | Op.DecByte => Token.DecByte
  | Op.OutByte => Token.OutByte
  | Op.InByte => Token.InByte
  | Op.LoopStart => Token.LoopStart
  | Op.LoopEnd => Token.LoopEnd

/-- Inverse of `Token.of_op`. -/
def Token.into_op : Token → Op
  | Token.IncPtr => Op.IncPtr
  | Token.DecPtr => Op.DecPtr
  | Token.IncByte => Op.IncByte
  | Token.DecByte => Op.DecByte
  | Token.OutByte => Op.OutByte
  | Token.InByte => Op.InByte
  | Token.LoopStart => Op.LoopStart
  | Token.LoopEnd => Op.LoopEnd

/-- View a VM state as the corresponding interpreter state. -/
def VM.to_interpreter (s : VM) : Interpreter :=
  ⟨⟨s.ir.tokens.map Token.of_op, s.ir.jump_table⟩, s.memory_buffer,
   s.memory_buffer_ptr, s.current_token_idx, s.in_fn, s.in_calls, s.out_buf⟩

lemma interp_step_exec_equiv (s : VM) (op : Op) :
    Interpreter.step_exec (VM.to_interpreter s) (Token.of_op op) =
      Option.map VM.to_interpreter (VM.step_exec s op) := by
  cases op with
  | IncPtr =>
    simp only [VM.step_exec, Token.of_op, Interpreter.step_exec, VM.to_interpreter]
    split <;> rfl
  | DecPtr =>
    simp only [VM.step_exec, Token.of_op, Interpreter.step_exec, VM.to_interpreter]
    split <;> rfl
  | IncByte =>
    simp only [VM.step_exec, Token.of_op, Interpreter.step_exec, VM.to_interpreter]
    cases s.memory_buffer[s.memory_buffer_ptr]? <;> rfl
  | DecByte =>
    simp only [VM.step_exec, Token.of_op, Interpreter.step_exec, VM.to_interpreter]
    cases s.memory_buffer[s.memory_buffer_ptr]? <;> rfl
  | OutByte =>
    simp only [VM.step_exec, Token.of_op, Interpreter.step_exec, VM.to_interpreter]
    cases s.memory_buffer[s.memory_buffer_ptr]? <;> rfl
  | InByte =>
    simp only [VM.step_exec, Token.of_op, Interpreter.step_exec, VM.to_interpreter]
    split <;> rfl
  | LoopStart =>
    simp only [VM.step_exec, Token.of_op, Interpreter.step_exec, VM.to_interpreter]
    cases s.memory_buffer[s.memory_buffer_ptr]? with
    | none => rfl
    | some c =>
      by_cases hc : c = 0
      · simp only [if_pos hc]
        cases s.ir.jump_table[s.current_token_idx]? <;> rfl
      · simp only [if_neg hc]
        rfl
  | LoopEnd =>
    simp only [VM.step_exec, Token.of_op, Interpreter.step_exec, VM.to_interpreter]
    cases s.memory_buffer[s.memory_buffer_ptr]? with
    | none => rfl
    | some c =>
      by_cases hc : c = 0
      · simp only [hc]
        rfl
      · simp only [if_pos hc]
        cases s.ir.jump_table[s.current_token_idx]? <;> rfl

/-- C10: `Interpreter::step` and `VM::step` compute the same state
transition: under the evident bijection between `Op` and `Token`, every VM
state steps to the image of its interpreter counterpart with the same
boolean result, the same tape, pointers and I/O trace (and the same
panic/failure behaviour); every interpreter state is the image of a VM
state, so the correspondence covers all programs, jump tables, memory
buffers, pointers and input behaviours. -/
theorem c10_interpreter_vm_step_equivalent :
    (∀ (s : VM), Interpreter.step (VM.to_interpreter s) =
      Option.map (fun bs => (bs.1, VM.to_interpreter bs.2)) (VM.step s)) ∧
    (∀ (t : Interpreter), ∃ s : VM, VM.to_interpreter s = t) := by
  constructor
  · intro s
    by_cases hlt : s.current_token_idx < s.ir.tokens.length
    · cases htok : s.ir.tokens[s.current_token_idx]? with
      | none =>
        have := List.getElem?_eq_none_iff.mp htok
        omega
      | some op =>
        have htok2 : (VM.to_interpreter s).ast.tokens[(VM.to_interpreter
            s).current_token_idx]? = some (Token.of_op op) := by
          simp [VM.to_interpreter, List.getElem?_map, htok]
        have hexec := interp_step_exec_equiv s op
        have hlt2 : (VM.to_interpreter s).current_token_idx <
            (VM.to_interpreter s).ast.tokens.length := by
          simp only [VM.to_interpreter, List.length_map]
          exact hlt
        cases he : VM.step_exec s op with
        | none =>
          unfold Interpreter.step VM.step
          rw [if_pos hlt2, if_pos hlt]
          simp only [htok2, htok, hexec, he]
          rfl
        | some s1 =>
          unfold Interpreter.step VM.step
          rw [if_pos hlt2, if_pos hlt]
          simp only [htok2, htok, hexec, he, Option.map_some']
          simp only [VM.to_interpreter, List.length_map]
          split <;> rfl
    · have hlt2 : ¬ (VM.to_interpreter s).current_token_idx <
          (VM.to_interpreter s).ast.tokens.length := by
        simp only [VM.to_interpreter, List.length_map]
        exact hlt
      unfold Interpreter.step VM.step
      rw [if_neg hlt2, if_neg hlt]
      rfl
  · intro t
    obtain ⟨⟨tt, tj⟩, tb, tp, ti, tf, tc, tob⟩ := t
    refine ⟨⟨⟨tt.map Token.into_op, tj⟩, tb, tp, ti, tf, tc, tob⟩, ?_⟩
    have hmap : (tt.map Token.into_op).map Token.of_op = tt := by
      rw [List.map_map]
      have hcomp : (Token.of_op ∘ Token.into_op) = id := by
        funext tk
        cases tk <;> rfl
      rw [hcomp, List.map_id]
    simp only [VM.to_interpreter]
    rw [hmap]

/-! ## Round trip for balanced, comment-free sources -/

/-- Balanced bracket structure of a source string: no prefix contains more
loop-end symbols than loop-start symbols, and the totals agree (the symbols
being classified exactly as the translator classifies them). -/
def BalancedSource (s : List Char) : Prop :=
  (∀ k, k < s.length →
    (s.take k).countP (fun c => decide (Op.from_char c = some Op.LoopEnd)) ≤
      (s.take k).countP (fun c => decide (Op.from_char c = some Op.LoopStart))) ∧
  s.countP (fun c => decide (Op.from_char c = some Op.LoopStart)) =
    s.countP (fun c => decide (Op.from_char c = some Op.LoopEnd))

lemma from_str_loop_tokens : ∀ (l : List (Nat × Char)) (tokens : List Op)
    (jt : List Nat) (stack : List (Nat × Nat)) (t2 : List Op) (j2 : List Nat)
    (s2 : List (Nat × Nat)),
    from_str_loop l tokens jt stack = Except.ok (t2, j2, s2) →
    t2 = tokens ++ l.filterMap (fun pc => Op.from_char pc.2) := by
  intro l
  induction l with
  | nil =>
    intro tokens jt stack t2 j2 s2 heq
    cases heq
    simp
  | cons pc rest ih =>
    intro tokens jt stack t2 j2 s2 heq
    obtain ⟨pos, ch⟩ := pc
    cases h : Op.from_char ch with
    | none =>
      simp only [from_str_loop, h] at heq
      rw [ih _ _ _ _ _ _ heq]
      simp [List.filterMap_cons, h]
    | some op =>
      cases op with
      | LoopStart =>
        simp only [from_str_loop, h] at heq
        rw [ih _ _ _ _ _ _ heq]
        simp [List.filterMap_cons, h]
      | LoopEnd =>
        cases stack with
        | nil =>
          simp only [from_str_loop, h] at heq
          cases heq
        | cons s0 stack2 =>
          obtain ⟨a0, p0⟩ := s0
          simp only [from_str_loop, h] at heq
          rw [ih _ _ _ _ _ _ heq]
          simp [List.filterMap_cons, h]
      | IncPtr =>
        simp only [from_str_loop, h] at heq
        rw [ih _ _ _ _ _ _ heq]
        simp [List.filterMap_cons, h]
      | DecPtr =>
        simp only [from_str_loop, h] at heq
        rw [ih _ _ _ _ _ _ heq]
        simp [List.filterMap_cons, h]
      | IncByte =>
        simp only [from_str_loop, h] at heq
        rw [ih _ _ _ _ _ _ heq]
        simp [List.filterMap_cons, h]
      | DecByte =>
        simp only [from_str_loop, h] at heq
        rw [ih _ _ _ _ _ _ heq]
        simp [List.filterMap_cons, h]
      | OutByte =>
        simp only [from_str_loop, h] at heq
        rw [ih _ _ _ _ _ _ heq]
        simp [List.filterMap_cons, h]
      | InByte =>
        simp only [from_str_loop, h] at heq
        rw [ih _ _ _ _ _ _ heq]
        simp [List.filterMap_cons, h]

lemma char_indices_from_map_snd (s : List Char) : ∀ off,
    (char_indices_from off s).map Prod.snd = s := by
  induction s with
  | nil => intro off; rfl
  | cons c rest ih =>
    intro off
    simp [char_indices_from, ih]

lemma char_indices_from_countP (s : List Char) (p : Char → Bool) : ∀ off,
    (char_indices_from off s).countP (fun pc => p pc.2) = s.countP p := by
  induction s with
  | nil => intro off; rfl
  | cons c rest ih =>
    intro off
    simp [char_indices_from, List.countP_cons, ih]

lemma char_indices_from_take (s : List Char) : ∀ (off k : Nat),
    (char_indices_from off s).take k = char_indices_from off (s.take k) := by
  induction s with
  | nil =>
    intro off k
    simp [char_indices_from]
  | cons c rest ih =>
    intro off k
    cases k with
    | zero => rfl
    | succ k =>
      simp [char_indices_from, List.take_succ_cons, ih]

lemma from_str_loop_balanced_ok : ∀ (l : List (Nat × Char)) (tokens : List Op)
    (jt : List Nat) (stack : List (Nat × Nat)),
    (∀ k, (l.take k).countP (fun pc => decide (Op.from_char pc.2 = some Op.LoopEnd)) ≤
      stack.length +
        (l.take k).countP (fun pc => decide (Op.from_char pc.2 = some Op.LoopStart))) →
    ∃ t2 j2 s2, from_str_loop l tokens jt stack = Except.ok (t2, j2, s2) ∧
      s2.length + l.countP (fun pc => decide (Op.from_char pc.2 = some Op.LoopEnd)) =
        stack.length + l.countP (fun pc => decide (Op.from_char pc.2 = some Op.LoopStart)) := by
  intro l
  induction l with
  | nil =>
    intro tokens jt stack hbal
    exact ⟨tokens, jt, stack, rfl, by simp⟩
  | cons pc rest ih =>
    intro tokens jt stack hbal
    obtain ⟨pos, ch⟩ := pc
    cases h : Op.from_char ch with
    | none =>
      have hb : ∀ k, (rest.take k).countP
          (fun pc => decide (Op.from_char pc.2 = some Op.LoopEnd)) ≤
          stack.length + (rest.take k).countP
          (fun pc => decide (Op.from_char pc.2 = some Op.LoopStart)) := by
        intro k
        have h1 := hbal (k + 1)
        simp only [List.take_succ_cons, List.countP_cons, h] at h1
        simp at h1
        omega
      obtain ⟨t2, j2, s2, hok, hlen⟩ := ih tokens jt stack hb
      refine ⟨t2, j2, s2, ?_, ?_⟩
      · simp only [from_str_loop, h]
        exact hok
      · simp only [List.countP_cons, h]
        simp
        omega
    | some op =>
      cases op with
      | LoopStart =>
        have hb : ∀ k, (rest.take k).countP
            (fun pc => decide (Op.from_char pc.2 = some Op.LoopEnd)) ≤
            ((tokens.length, pos) :: stack).length + (rest.take k).countP
            (fun pc => decide (Op.from_char pc.2 = some Op.LoopStart)) := by
          intro k
          have h1 := hbal (k + 1)
          simp only [List.take_succ_cons, List.countP_cons, h] at h1
          simp at h1
          simp only [List.length_cons]
          omega
        obtain ⟨t2, j2, s2, hok, hlen⟩ := ih (tokens ++ [Op.LoopStart]) jt
          ((tokens.length, pos) :: stack) hb
        refine ⟨t2, j2, s2, ?_, ?_⟩
        · simp only [from_str_loop, h]
          exact hok
        · simp only [List.length_cons] at hlen
          simp only [List.countP_cons, h]
          simp
          omega
      | LoopEnd =>
        have hone : 1 ≤ stack.length := by
          have h1 := hbal 1
          simp only [List.take_succ_cons, List.take_zero, List.countP_cons, h] at h1
          simp at h1
          omega
        cases stack with
        | nil => simp at hone
        | cons s0 stack2 =>
          obtain ⟨a0, p0⟩ := s0
          have hb : ∀ k, (rest.take k).countP
              (fun pc => decide (Op.from_char pc.2 = some Op.LoopEnd)) ≤
              stack2.length + (rest.take k).countP
              (fun pc => decide (Op.from_char pc.2 = some Op.LoopStart)) := by
            intro k
            have h1 := hbal (k + 1)
            simp only [List.take_succ_cons, List.countP_cons, h, List.length_cons] at h1
            simp at h1
            omega
          obtain ⟨t2, j2, s2, hok, hlen⟩ := ih (tokens ++ [Op.LoopEnd])
            (((ensure_len jt (max a0 tokens.length)).set a0
              tokens.length).set tokens.length a0) stack2 hb
          refine ⟨t2, j2, s2, ?_, ?_⟩
          · simp only [from_str_loop, h]
            exact hok
          · simp only [List.countP_cons, h, List.length_cons]
            simp
            omega
      | IncPtr =>
        have hb : ∀ k, (rest.take k).countP
            (fun pc => decide (Op.from_char pc.2 = some Op.LoopEnd)) ≤
            stack.length + (rest.take k).countP
            (fun pc => decide (Op.from_char pc.2 = some Op.LoopStart)) := by
          intro k
          have h1 := hbal (k + 1)
          simp only [List.take_succ_cons, List.countP_cons, h] at h1
          simp at h1
          omega
        obtain ⟨t2, j2, s2, hok, hlen⟩ := ih (tokens ++ [Op.IncPtr]) jt stack hb
        refine ⟨t2, j2, s2, ?_, ?_⟩
        · simp only [from_str_loop, h]
          exact hok
        · simp only [List.countP_cons, h]
          simp
          omega
      | DecPtr =>
        have hb : ∀ k, (rest.take k).countP
            (fun pc => decide (Op.from_char pc.2 = some Op.LoopEnd)) ≤
            stack.length + (rest.take k).countP
            (fun pc => decide (Op.from_char pc.2 = some Op.LoopStart)) := by
          intro k
          have h1 := hbal (k + 1)
          simp only [List.take_succ_cons, List.countP_cons, h] at h1
          simp at h1
          omega
        obtain ⟨t2, j2, s2, hok, hlen⟩ := ih (tokens ++ [Op.DecPtr]) jt stack hb
        refine ⟨t2, j2, s2, ?_, ?_⟩
        · simp only [from_str_loop, h]
          exact hok
        · simp only [List.countP_cons, h]
          simp
          omega
      | IncByte =>
        have hb : ∀ k, (rest.take k).countP
            (fun pc => decide (Op.from_char pc.2 = some Op.LoopEnd)) ≤
            stack.length + (rest.take k).countP
            (fun pc => decide (Op.from_char pc.2 = some Op.LoopStart)) := by
          intro k
          have h1 := hbal (k + 1)
          simp only [List.take_succ_cons, List.countP_cons, h] at h1
          simp at h1
          omega
        obtain ⟨t2, j2, s2, hok, hlen⟩ := ih (tokens ++ [Op.IncByte]) jt stack hb
        refine ⟨t2, j2, s2, ?_, ?_⟩
        · simp only [from_str_loop, h]
          exact hok
        · simp only [List.countP_cons, h]
          simp
          omega
      | DecByte =>
        have hb : ∀ k, (rest.take k).countP
            (fun pc => decide (Op.from_char pc.2 = some Op.LoopEnd)) ≤
            stack.length + (rest.take k).countP
            (fun pc => decide (Op.from_char pc.2 = some Op.LoopStart)) := by
          intro k
          have h1 := hbal (k + 1)
          simp only [List.take_succ_cons, List.countP_cons, h] at h1
          simp at h1
          omega
        obtain ⟨t2, j2, s2, hok, hlen⟩ := ih (tokens ++ [Op.DecByte]) jt stack hb
        refine ⟨t2, j2, s2, ?_, ?_⟩
        · simp only [from_str_loop, h]
          exact hok
        · simp only [List.countP_cons, h]
          simp
          omega
      | OutByte =>
        have hb : ∀ k, (rest.take k).countP
            (fun pc => decide (Op.from_char pc.2 = some Op.LoopEnd)) ≤
            stack.length + (rest.take k).countP
            (fun pc => decide (Op.from_char pc.2 = some Op.LoopStart)) := by
          intro k
          have h1 := hbal (k + 1)
          simp only [List.take_succ_cons, List.countP_cons, h] at h1
          simp at h1
          omega
        obtain ⟨t2, j2, s2, hok, hlen⟩ := ih (tokens ++ [Op.OutByte]) jt stack hb
        refine ⟨t2, j2, s2, ?_, ?_⟩
        · simp only [from_str_loop, h]
          exact hok
        · simp only [List.countP_cons, h]
          simp
          omega
      | InByte =>
        have hb : ∀ k, (rest.take k).countP
            (fun pc => decide (Op.from_char pc.2 = some Op.LoopEnd)) ≤
            stack.length + (rest.take k).countP
            (fun pc => decide (Op.from_char pc.2 = some Op.LoopStart)) := by
          intro k
          have h1 := hbal (k + 1)
          simp only [List.take_succ_cons, List.countP_cons, h] at h1
          simp at h1
          omega
        obtain ⟨t2, j2, s2, hok, hlen⟩ := ih (tokens ++ [Op.InByte]) jt stack hb
        refine ⟨t2, j2, s2, ?_, ?_⟩
        · simp only [from_str_loop, h]
          exact hok
        · simp only [List.countP_cons, h]
          simp
          omega

lemma filterMap_from_char_map_into (s : List Char)
    (hsym : ∀ c ∈ s, (Op.from_char c).isSome = true) :
    (s.filterMap Op.from_char).map Op.into_char = s := by
  induction s with
  | nil => rfl
  | cons c rest ih =>
    cases h : Op.from_char c with
    | none =>
      have := hsym c (List.mem_cons_self _ _)
      rw [h] at this
      cases this
    | some op =>
      rw [List.filterMap_cons_some h, List.map_cons, into_char_from_char h,
        ih (fun x hx => hsym x (List.mem_cons_of_mem _ hx))]

/-- C9: every balanced source string consisting only of the eight
instruction symbols is accepted by the translator, and mapping the output
instructions back to symbols recovers exactly the source's characters in
order. -/
theorem c9_balanced_sources_round_trip (input : List Char)
    (hsym : ∀ c ∈ input, (Op.from_char c).isSome = true)
    (hbal : BalancedSource input) :
    ∃ ir, IR.from_str input = Except.ok ir ∧
      ir.tokens.map Op.into_char = input := by
  have hcond : ∀ k, ((char_indices input).take k).countP
      (fun pc => decide (Op.from_char pc.2 = some Op.LoopEnd)) ≤
      ([] : List (Nat × Nat)).length + ((char_indices input).take k).countP
      (fun pc => decide (Op.from_char pc.2 = some Op.LoopStart)) := by
    intro k
    unfold char_indices
    rw [char_indices_from_take]
    have he : (char_indices_from 0 (input.take k)).countP
        (fun pc => decide (Op.from_char pc.2 = some Op.LoopEnd)) =
        (input.take k).countP (fun c => decide (Op.from_char c = some Op.LoopEnd)) :=
      char_indices_from_countP (input.take k)
        (fun c => decide (Op.from_char c = some Op.LoopEnd)) 0
    have hs : (char_indices_from 0 (input.take k)).countP
        (fun pc => decide (Op.from_char pc.2 = some Op.LoopStart)) =
        (input.take k).countP (fun c => decide (Op.from_char c = some Op.LoopStart)) :=
      char_indices_from_countP (input.take k)
        (fun c => decide (Op.from_char c = some Op.LoopStart)) 0
    rw [he, hs]
    simp only [List.length_nil, Nat.zero_add]
    by_cases hk : k < input.length
    · exact hbal.1 k hk
    · rw [List.take_of_length_le (by omega)]
      exact Nat.le_of_eq hbal.2.symm
  obtain ⟨t2, j2, s2, hok, hlen⟩ :=
    from_str_loop_balanced_ok (char_indices input) [] [] [] hcond
  have hcnt1 : (char_indices input).countP
      (fun pc => decide (Op.from_char pc.2 = some Op.LoopEnd)) =
      input.countP (fun c => decide (Op.from_char c = some Op.LoopEnd)) :=
    char_indices_from_countP input
      (fun c => decide (Op.from_char c = some Op.LoopEnd)) 0
  have hcnt2 : (char_indices input).countP
      (fun pc => decide (Op.from_char pc.2 = some Op.LoopStart)) =
      input.countP (fun c => decide (Op.from_char c = some Op.LoopStart)) :=
    char_indices_from_countP input
      (fun c => decide (Op.from_char c = some Op.LoopStart)) 0
  have hs2 : s2 = [] := by
    rw [hcnt1, hcnt2] at hlen
    have hb2 := hbal.2
    rw [← List.length_eq_zero]
    simp only [List.length_nil] at hlen
    omega
  subst hs2
  have htok := from_str_loop_tokens _ _ _ _ _ _ _ hok
  refine ⟨⟨t2, j2⟩, ?_, ?_⟩
  · unfold IR.from_str
    rw [hok]
  · show t2.map Op.into_char = input
    rw [htok]
    simp only [List.nil_append]
    have hfm : (char_indices input).filterMap (fun pc => Op.from_char pc.2) =
        input.filterMap Op.from_char := by
      conv_rhs => rw [← char_indices_from_map_snd input 0]
      rw [List.filterMap_map]
      exact rfl
    rw [hfm]
    exact filterMap_from_char_map_into input hsym

/-- Witness for C9 at the balanced, comment-free source "[+]". -/
theorem c9_balanced_sources_round_trip_witness :
    (∀ c ∈ (['[', '+', ']'] : List Char), (Op.from_char c).isSome = true) ∧
    BalancedSource ['[', '+', ']'] ∧
    ∃ ir, IR.from_str ['[', '+', ']'] = Except.ok ir ∧
      ir.tokens.map Op.into_char = ['[', '+', ']'] :=
  ⟨by decide, by unfold BalancedSource; decide,
   c9_balanced_sources_round_trip ['[', '+', ']'] (by decide)
     (by unfold BalancedSource; decide)⟩
